import Mathlib

/-!
Shallow embedding of the `mcache` in-memory key/value cache (Go).

Time is modelled as `Int` nanoseconds (`now` is passed explicitly to every
operation, standing for `time.Now()`); `time.Duration` values are `Int`
nanoseconds.  The Go `map[string]*item` is modelled as an association list
with at most one binding per key (operations preserve this, starting from
the empty map).  Pointer mutation of an item found by `get` (as done by
`touch` and `update`) is modelled by writing the modified item back into
the map at its key.
-/

namespace MCache

/-- `ExpirationKind` from the source: sliding vs absolute expiration. -/
inductive ExpirationKind where
  | SlidingExpiration
  | AbsoluteExpiration
deriving DecidableEq

/-- `_minTickInterval = time.Second` in nanoseconds. -/
def _minTickInterval : Int := 1000000000

/-- `_minExpiration = time.Microsecond` in nanoseconds. -/
def _minExpiration : Int := 1000

/-- `_noExpiration = 1000 * 1000 * time.Hour` in nanoseconds. -/
def _noExpiration : Int := 3600000000000000000

/-- The cache entry record `item` from the source. -/
structure Item (α : Type) where
  key : String
  value : α
  version : Int
  kind : ExpirationKind
  expiration : Int
  expAt : Int
deriving DecidableEq

variable {α : Type}

/-- `item.expired()`: `time.Now().After(item.ExpAt)`, i.e. `now > ExpAt`. -/
def Item.expired (x : Item α) (now : Int) : Bool :=
  decide (x.expAt < now)

/-- `item.touch()`: refresh `ExpAt` for sliding entries with meaningful duration. -/
def Item.touch (x : Item α) (now : Int) : Item α :=
  if x.kind ≠ ExpirationKind.SlidingExpiration then x
  else if _minExpiration ≤ x.expiration then { x with expAt := now + x.expiration }
  else x

/-- The `items map[string]*item` field, as an association list. -/
abbrev CMap (α : Type) : Type := List (String × Item α)

/-- Go map lookup `items[key]`. -/
def mapFind : CMap α → String → Option (Item α)
  | [], _ => none
  | (k, x) :: rest, key => if k = key then some x else mapFind rest key

/-- Go map assignment `items[key] = x` (replace the binding or append it). -/
def mapInsert : CMap α → String → Item α → CMap α
  | [], key, x => [(key, x)]
  | (k, y) :: rest, key, x =>
      if k = key then (k, x) :: rest else (k, y) :: mapInsert rest key x

/-- Go map deletion `delete(items, key)`. -/
def mapErase : CMap α → String → CMap α
  | [], _ => []
  | (k, y) :: rest, key => if k = key then rest else (k, y) :: mapErase rest key

/-- `mcache.put`: normalize a below-minimum duration to `0` with a far-future
`ExpAt`, and store a fresh version-0 item. -/
def put (m : CMap α) (now : Int) (key : String) (value : α) (expire : Int)
    (kind : ExpirationKind) : CMap α :=
  if expire < _minExpiration then
    mapInsert m key
      { key := key, value := value, version := 0, kind := kind,
        expiration := 0, expAt := now + _noExpiration }
  else
    mapInsert m key
      { key := key, value := value, version := 0, kind := kind,
        expiration := expire, expAt := now + expire }

/-- `mcache.get`: lookup with lazy-expiry visibility; entries whose stored
duration is below `_minExpiration` are always visible, others only while
not expired.  Never mutates the map. -/
def get (m : CMap α) (now : Int) (key : String) : Option (Item α) :=
  match mapFind m key with
  | none => none
  | some x =>
      if x.expiration < _minExpiration then some x
      else if x.expired now then none
      else some x

/-- `mcache.update`: the shared body of `Update` and `UpdateV`.  Returns the
boolean result and the resulting map (the Go code mutates the found item
through its pointer). -/
def update (m : CMap α) (now : Int) (key : String) (version : Int) (value : α) :
    Bool × CMap α :=
  match get m now key with
  | none => (false, m)
  | some x =>
      if 0 ≤ version ∧ x.version ≠ version then (false, m)
      else
        (true, mapInsert m key
          (Item.touch { x with value := value, version := x.version + 1 } now))

/-- `Put`. -/
def PutOp (m : CMap α) (now : Int) (key : String) (value : α) (expire : Int)
    (kind : ExpirationKind) : CMap α :=
  put m now key value expire kind

/-- `Get`: on success the found item is touched (sliding refresh) in place. -/
def GetOp (m : CMap α) (now : Int) (key : String) : Option α × CMap α :=
  match get m now key with
  | none => (none, m)
  | some x => (some x.value, mapInsert m key (x.touch now))

/-- `GetV`: like `Get` but also returns the version. -/
def GetVOp (m : CMap α) (now : Int) (key : String) :
    Option (α × Int) × CMap α :=
  match get m now key with
  | none => (none, m)
  | some x => (some (x.value, x.version), mapInsert m key (x.touch now))

/-- `Add`: insert only when the key is absent, or present but with meaningful
duration and expired. -/
def AddOp (m : CMap α) (now : Int) (key : String) (value : α) (expire : Int)
    (kind : ExpirationKind) : Bool × CMap α :=
  match mapFind m key with
  | none => (true, put m now key value expire kind)
  | some x =>
      if _minExpiration ≤ x.expiration ∧ x.expired now = true then
        (true, put m now key value expire kind)
      else (false, m)

/-- `Update`: `update` with version `-1`. -/
def UpdateOp (m : CMap α) (now : Int) (key : String) (value : α) :
    Bool × CMap α :=
  update m now key (-1) value

/-- `UpdateV`: `update` with the caller's expected version. -/
def UpdateVOp (m : CMap α) (now : Int) (key : String) (version : Int)
    (value : α) : Bool × CMap α :=
  update m now key version value

/-- `Exists`: `get` without the touch; never mutates the map. -/
def ExistsOp (m : CMap α) (now : Int) (key : String) : Bool :=
  (get m now key).isSome

/-- `Keys`: all keys of entries that are not expired (raw `expired()` check). -/
def KeysOp (m : CMap α) (now : Int) : List String :=
  (m.filter fun p => !(p.2.expired now)).map Prod.fst

/-- `Count`: `len(items)`, expired entries included. -/
def CountOp (m : CMap α) : Nat :=
  m.length

/-- `Delete`. -/
def DeleteOp (m : CMap α) (key : String) : CMap α :=
  mapErase m key

/-- `DeleteMulti`: delete each key in turn (no-op on the empty list). -/
def DeleteMultiOp (m : CMap α) (keys : List String) : CMap α :=
  keys.foldl mapErase m

/-- `Clear`: replace the map with a fresh empty one. -/
def ClearOp (_m : CMap α) : CMap α :=
  []

/-- `expKeys`: the keys the sweeper collects, those with `expired()` true. -/
def expKeysOp (m : CMap α) (now : Int) : List String :=
  (m.filter fun p => p.2.expired now).map Prod.fst

/-- `recycle`: one sweeper pass, deleting the collected expired keys. -/
def recycleOp (m : CMap α) (now : Int) : CMap α :=
  DeleteMultiOp m (expKeysOp m now)

/-- `startTick`: the effective tick interval, flooring `TickInterval` at
`_minTickInterval`. -/
def effectiveTickInterval (tickInterval : Int) : Int :=
  if tickInterval < _minTickInterval then _minTickInterval else tickInterval

/-- Cache states reachable from the empty cache through the public
operations (all calls at nonnegative times). -/
inductive Reachable : CMap α → Prop where
  | empty : Reachable []
  | putStep (m : CMap α) (now : Int) (hnow : 0 ≤ now) (k : String) (v : α)
      (e : Int) (kd : ExpirationKind) :
      Reachable m → Reachable (PutOp m now k v e kd)
  | addStep (m : CMap α) (now : Int) (hnow : 0 ≤ now) (k : String) (v : α)
      (e : Int) (kd : ExpirationKind) :
      Reachable m → Reachable (AddOp m now k v e kd).2
  | updateStep (m : CMap α) (now : Int) (hnow : 0 ≤ now) (k : String)
      (ver : Int) (v : α) :
      Reachable m → Reachable (update m now k ver v).2
  | getStep (m : CMap α) (now : Int) (hnow : 0 ≤ now) (k : String) :
      Reachable m → Reachable (GetOp m now k).2
  | getVStep (m : CMap α) (now : Int) (hnow : 0 ≤ now) (k : String) :
      Reachable m → Reachable (GetVOp m now k).2
  | deleteStep (m : CMap α) (k : String) :
      Reachable m → Reachable (DeleteOp m k)
  | deleteMultiStep (m : CMap α) (ks : List String) :
      Reachable m → Reachable (DeleteMultiOp m ks)
  | clearStep (m : CMap α) :
      Reachable m → Reachable (ClearOp m)
  | recycleStep (m : CMap α) (now : Int) (hnow : 0 ≤ now) :
      Reachable m → Reachable (recycleOp m now)

/-- The normalized-`Expiration` invariant for a single item: the duration is
either exactly `0` (the no-expiration marker, with a far-future `ExpAt`) or
at least `_minExpiration`. -/
def GoodItem (x : Item α) : Prop :=
  (x.expiration = 0 ∨ _minExpiration ≤ x.expiration) ∧
    (x.expiration = 0 → _noExpiration ≤ x.expAt)

/-- Every item stored in the map satisfies `GoodItem`. -/
def GoodMap (m : CMap α) : Prop :=
  ∀ p, p ∈ m → GoodItem p.2

/-- The association list has no duplicate keys. -/
def KeysNodup (m : CMap α) : Prop :=
  (m.map Prod.fst).Nodup

theorem mapFind_mapInsert (m : CMap α) (key key2 : String) (x : Item α) :
    mapFind (mapInsert m key x) key2 =
      if key = key2 then some x else mapFind m key2 := by
  induction m with
  | nil => simp [mapInsert, mapFind]
  | cons p rest ih =>
      obtain ⟨k, y⟩ := p
      by_cases hk : k = key
      · subst hk
        simp only [mapInsert, if_pos rfl, mapFind]
        by_cases hk2 : k = key2 <;> simp [hk2]
      · simp only [mapInsert, if_neg hk, mapFind, ih]
        by_cases hk2 : k = key2
        · subst hk2
          have hne : ¬ key = k := fun h => hk h.symm
          simp [hne]
        · simp [hk2]

theorem mem_mapInsert (m : CMap α) (key : String) (x : Item α)
    (p : String × Item α) (hp : p ∈ mapInsert m key x) :
    p.2 = x ∨ p ∈ m := by
  induction m with
  | nil => simp [mapInsert] at hp; simp [hp]
  | cons q rest ih =>
      obtain ⟨k, y⟩ := q
      by_cases hk : k = key
      · simp only [mapInsert, if_pos hk] at hp
        rcases List.mem_cons.mp hp with h | h
        · left; rw [h]
        · right; exact List.mem_cons_of_mem _ h
      · simp only [mapInsert, if_neg hk] at hp
        rcases List.mem_cons.mp hp with h | h
        · right; exact h ▸ List.mem_cons_self _ _
        · rcases ih h with h2 | h2
          · left; exact h2
          · right; exact List.mem_cons_of_mem _ h2

theorem mapErase_sublist (m : CMap α) (key : String) :
    (mapErase m key).Sublist m := by
  induction m with
  | nil => simp [mapErase]
  | cons q rest ih =>
      obtain ⟨k, y⟩ := q
      by_cases hk : k = key
      · simp only [mapErase, if_pos hk]
        exact (List.sublist_cons_self _ _)
      · simp only [mapErase, if_neg hk]
        exact List.Sublist.cons₂ _ ih

theorem mapFind_mem (m : CMap α) (key : String) (x : Item α)
    (h : mapFind m key = some x) : ∃ k, (k, x) ∈ m := by
  induction m with
  | nil => simp [mapFind] at h
  | cons q rest ih =>
      obtain ⟨k, y⟩ := q
      by_cases hk : k = key
      · simp only [mapFind, if_pos hk] at h
        obtain rfl : y = x := Option.some.inj h
        exact ⟨k, List.mem_cons_self _ _⟩
      · simp only [mapFind, if_neg hk] at h
        obtain ⟨k2, hk2⟩ := ih h
        exact ⟨k2, List.mem_cons_of_mem _ hk2⟩

theorem mapInsert_exists_mem (m : CMap α) (key : String) (x : Item α) :
    ∃ p, p ∈ mapInsert m key x ∧ p.1 = key ∧ p.2 = x := by
  induction m with
  | nil => exact ⟨(key, x), by simp [mapInsert], rfl, rfl⟩
  | cons q rest ih =>
      obtain ⟨k, y⟩ := q
      by_cases hk : k = key
      · exact ⟨(k, x), by simp [mapInsert, if_pos hk], hk, rfl⟩
      · obtain ⟨p, hp, h1, h2⟩ := ih
        exact ⟨p, by simp [mapInsert, if_neg hk, hp], h1, h2⟩

theorem get_eq_found (m : CMap α) (now : Int) (k : String) (x : Item α)
    (h : get m now k = some x) : mapFind m k = some x := by
  cases hf : mapFind m k with
  | none =>
      simp only [get, hf] at h
      exact h
  | some y =>
      simp only [get, hf] at h
      by_cases h1 : y.expiration < _minExpiration
      · rw [if_pos h1] at h
        exact h
      · rw [if_neg h1] at h
        by_cases h2 : y.expired now = true
        · rw [if_pos h2] at h
          exact absurd h (by simp)
        · rw [if_neg h2] at h
          exact h

theorem goodItem_touch (x : Item α) (now : Int) (h : GoodItem x) :
    GoodItem (x.touch now) := by
  obtain ⟨h1, h2⟩ := h
  unfold Item.touch
  split
  · exact ⟨h1, h2⟩
  · split
    · rename_i hge
      refine ⟨h1, fun h0 => ?_⟩
      simp only [GoodItem] at h0 ⊢
      rw [h0] at hge
      norm_num [_minExpiration] at hge
    · exact ⟨h1, h2⟩

theorem goodMap_mapInsert (m : CMap α) (key : String) (x : Item α)
    (hm : GoodMap m) (hx : GoodItem x) : GoodMap (mapInsert m key x) := by
  intro p hp
  rcases mem_mapInsert m key x p hp with h | h
  · rw [h]; exact hx
  · exact hm p h

theorem goodMap_mapErase (m : CMap α) (key : String) (hm : GoodMap m) :
    GoodMap (mapErase m key) := fun p hp =>
  hm p ((mapErase_sublist m key).subset hp)

theorem goodMap_foldl_erase (ks : List String) (m : CMap α) (hm : GoodMap m) :
    GoodMap (ks.foldl mapErase m) := by
  induction ks generalizing m with
  | nil => exact hm
  | cons k ks ih => exact ih _ (goodMap_mapErase m k hm)

theorem goodMap_put (m : CMap α) (now : Int) (hnow : 0 ≤ now) (k : String)
    (v : α) (e : Int) (kd : ExpirationKind) (hm : GoodMap m) :
    GoodMap (put m now k v e kd) := by
  unfold put
  split
  · refine goodMap_mapInsert _ _ _ hm ⟨Or.inl rfl, fun _ => ?_⟩
    exact le_add_of_nonneg_left hnow
  · rename_i hge
    push_neg at hge
    refine goodMap_mapInsert _ _ _ hm ⟨Or.inr hge, fun h0 => ?_⟩
    have h0e : e = 0 := h0
    rw [h0e] at hge
    norm_num [_minExpiration] at hge

theorem get_goodItem (m : CMap α) (now : Int) (k : String) (x : Item α)
    (hm : GoodMap m) (h : get m now k = some x) : GoodItem x := by
  obtain ⟨k2, hk2⟩ := mapFind_mem m k x (get_eq_found m now k x h)
  exact hm (k2, x) hk2

theorem goodMap_update (m : CMap α) (now : Int) (k : String) (ver : Int)
    (v : α) (hm : GoodMap m) : GoodMap (update m now k ver v).2 := by
  unfold update
  cases hg : get m now k with
  | none => exact hm
  | some x =>
      simp only []
      split
      · exact hm
      · refine goodMap_mapInsert _ _ _ hm (goodItem_touch _ _ ?_)
        exact get_goodItem m now k x hm hg

theorem goodMap_getOp (m : CMap α) (now : Int) (k : String) (hm : GoodMap m) :
    GoodMap (GetOp m now k).2 := by
  unfold GetOp
  cases hg : get m now k with
  | none => exact hm
  | some x =>
      exact goodMap_mapInsert _ _ _ hm
        (goodItem_touch _ _ (get_goodItem m now k x hm hg))

theorem goodMap_getVOp (m : CMap α) (now : Int) (k : String) (hm : GoodMap m) :
    GoodMap (GetVOp m now k).2 := by
  unfold GetVOp
  cases hg : get m now k with
  | none => exact hm
  | some x =>
      exact goodMap_mapInsert _ _ _ hm
        (goodItem_touch _ _ (get_goodItem m now k x hm hg))

theorem goodMap_addOp (m : CMap α) (now : Int) (hnow : 0 ≤ now) (k : String)
    (v : α) (e : Int) (kd : ExpirationKind) (hm : GoodMap m) :
    GoodMap (AddOp m now k v e kd).2 := by
  unfold AddOp
  cases hf : mapFind m k with
  | none => exact goodMap_put m now hnow k v e kd hm
  | some x =>
      simp only []
      split
      · exact goodMap_put m now hnow k v e kd hm
      · exact hm

theorem reachable_goodMap (m : CMap α) (h : Reachable m) : GoodMap m := by
  induction h with
  | empty => intro p hp; simp at hp
  | putStep m now hnow k v e kd _ ih => exact goodMap_put m now hnow k v e kd ih
  | addStep m now hnow k v e kd _ ih => exact goodMap_addOp m now hnow k v e kd ih
  | updateStep m now hnow k ver v _ ih => exact goodMap_update m now k ver v ih
  | getStep m now hnow k _ ih => exact goodMap_getOp m now k ih
  | getVStep m now hnow k _ ih => exact goodMap_getVOp m now k ih
  | deleteStep m k _ ih => exact goodMap_mapErase m k ih
  | deleteMultiStep m ks _ ih => exact goodMap_foldl_erase ks m ih
  | clearStep m _ _ => intro p hp; simp [ClearOp] at hp
  | recycleStep m now hnow _ ih => exact goodMap_foldl_erase _ m ih

theorem mem_keys_mapInsert (m : CMap α) (key : String) (x : Item α)
    (a : String) (ha : a ∈ (mapInsert m key x).map Prod.fst) :
    a ∈ m.map Prod.fst ∨ a = key := by
  induction m with
  | nil =>
      simp only [mapInsert, List.map_cons, List.map_nil, List.mem_singleton] at ha
      exact Or.inr ha
  | cons q rest ih =>
      obtain ⟨k, y⟩ := q
      by_cases hk : k = key
      · simp only [mapInsert, if_pos hk, List.map_cons, List.mem_cons] at ha ⊢
        exact Or.inl ha
      · simp only [mapInsert, if_neg hk, List.map_cons, List.mem_cons] at ha ⊢
        rcases ha with h | h
        · exact Or.inl (Or.inl h)
        · rcases ih h with h2 | h2
          · exact Or.inl (Or.inr h2)
          · exact Or.inr h2

theorem keysNodup_mapInsert (m : CMap α) (key : String) (x : Item α)
    (h : KeysNodup m) : KeysNodup (mapInsert m key x) := by
  induction m with
  | nil => simp [mapInsert, KeysNodup]
  | cons q rest ih =>
      obtain ⟨k, y⟩ := q
      unfold KeysNodup at h ⊢
      simp only [List.map_cons, List.nodup_cons] at h
      obtain ⟨hk1, hk2⟩ := h
      by_cases hk : k = key
      · simp only [mapInsert, if_pos hk, List.map_cons, List.nodup_cons]
        exact ⟨hk1, hk2⟩
      · simp only [mapInsert, if_neg hk, List.map_cons, List.nodup_cons]
        refine ⟨fun hmem => ?_, ih hk2⟩
        rcases mem_keys_mapInsert rest key x k hmem with h2 | h2
        · exact hk1 h2
        · exact hk h2

theorem keysNodup_mapErase (m : CMap α) (key : String) (h : KeysNodup m) :
    KeysNodup (mapErase m key) :=
  h.sublist ((mapErase_sublist m key).map Prod.fst)

theorem keysNodup_foldl_erase (ks : List String) (m : CMap α)
    (h : KeysNodup m) : KeysNodup (ks.foldl mapErase m) := by
  induction ks generalizing m with
  | nil => exact h
  | cons k ks ih => exact ih _ (keysNodup_mapErase m k h)

theorem keysNodup_put (m : CMap α) (now : Int) (k : String) (v : α) (e : Int)
    (kd : ExpirationKind) (h : KeysNodup m) : KeysNodup (put m now k v e kd) := by
  unfold put
  split <;> exact keysNodup_mapInsert m k _ h

theorem reachable_keysNodup (m : CMap α) (h : Reachable m) : KeysNodup m := by
  induction h with
  | empty => simp [KeysNodup]
  | putStep m now hnow k v e kd _ ih => exact keysNodup_put m now k v e kd ih
  | addStep m now hnow k v e kd _ ih =>
      unfold AddOp
      cases mapFind m k with
      | none => exact keysNodup_put m now k v e kd ih
      | some x =>
          simp only []
          split
          · exact keysNodup_put m now k v e kd ih
          · exact ih
  | updateStep m now hnow k ver v _ ih =>
      unfold update
      cases get m now k with
      | none => exact ih
      | some x =>
          simp only []
          split
          · exact ih
          · exact keysNodup_mapInsert m k _ ih
  | getStep m now hnow k _ ih =>
      unfold GetOp
      cases get m now k with
      | none => exact ih
      | some x => exact keysNodup_mapInsert m k _ ih
  | getVStep m now hnow k _ ih =>
      unfold GetVOp
      cases get m now k with
      | none => exact ih
      | some x => exact keysNodup_mapInsert m k _ ih
  | deleteStep m k _ ih => exact keysNodup_mapErase m k ih
  | deleteMultiStep m ks _ ih => exact keysNodup_foldl_erase ks m ih
  | clearStep m _ _ => simp [ClearOp, KeysNodup]
  | recycleStep m now hnow _ ih => exact keysNodup_foldl_erase _ m ih

theorem keysOp_subset_keys (m : CMap α) (now : Int) (k : String)
    (h : k ∈ KeysOp m now) : k ∈ m.map Prod.fst := by
  unfold KeysOp at h
  obtain ⟨p, hp, rfl⟩ := List.mem_map.mp h
  exact List.mem_map.mpr ⟨p, (List.mem_filter.mp hp).1, rfl⟩

theorem keysOp_mem_iff (m : CMap α) (now : Int) (k : String) (hm : KeysNodup m) :
    k ∈ KeysOp m now ↔
      Option.any (fun x => !(x.expired now)) (mapFind m k) = true := by
  induction m with
  | nil => simp [KeysOp, mapFind]
  | cons q rest ih =>
      obtain ⟨k0, x0⟩ := q
      unfold KeysNodup at hm
      simp only [List.map_cons, List.nodup_cons] at hm
      obtain ⟨h1, h2⟩ := hm
      have ihr := ih h2
      by_cases hk : k0 = k
      · subst hk
        simp only [mapFind, if_pos rfl]
        by_cases he : x0.expired now = true
        · have hkeys : KeysOp ((k0, x0) :: rest) now = KeysOp rest now := by
            simp [KeysOp, List.filter_cons, he]
          rw [hkeys]
          simp only [Option.any, he]
          constructor
          · intro hmem
            exact absurd (keysOp_subset_keys rest now k0 hmem) h1
          · intro habs
            exact absurd habs (by simp [he])
        · have hkeys : KeysOp ((k0, x0) :: rest) now = k0 :: KeysOp rest now := by
            simp [KeysOp, List.filter_cons, he]
          rw [hkeys]
          simp [Option.any, he]
      · simp only [mapFind, if_neg hk]
        rw [← ihr]
        by_cases he : x0.expired now = true
        · have hkeys : KeysOp ((k0, x0) :: rest) now = KeysOp rest now := by
            simp [KeysOp, List.filter_cons, he]
          rw [hkeys]
        · have hkeys : KeysOp ((k0, x0) :: rest) now = k0 :: KeysOp rest now := by
            simp [KeysOp, List.filter_cons, he]
          rw [hkeys]
          constructor
          · intro hmem
            rcases List.mem_cons.mp hmem with h | h
            · exact absurd h.symm hk
            · exact h
          · exact fun h => List.mem_cons_of_mem _ h

/-- Claim C3: when the stored entry for a key has a meaningful duration
(at least `_minExpiration`) and its expiry timestamp has passed, `Get`
returns not-found and leaves the map exactly as it was before the call. -/
theorem get_expired_frame (m : CMap α) (now : Int) (k : String) (x : Item α)
    (hf : mapFind m k = some x) (hd : _minExpiration ≤ x.expiration)
    (he : x.expAt < now) :
    GetOp m now k = (none, m) := by
  have hg : get m now k = none := by
    simp only [get, hf]
    rw [if_neg (not_lt.mpr hd), if_pos (by simp [Item.expired, he])]
  simp [GetOp, hg]

/-- Witness for C3: a concrete absolute entry of duration 2000ns read at
time 3000ns is reported absent and the map is untouched. -/
theorem get_expired_frame_witness :
    GetOp (put ([] : CMap Nat) 0 "k" 5 2000 ExpirationKind.AbsoluteExpiration)
        3000 "k" =
      (none, put ([] : CMap Nat) 0 "k" 5 2000 ExpirationKind.AbsoluteExpiration) :=
  get_expired_frame _ 3000 "k"
    { key := "k", value := 5, version := 0,
      kind := ExpirationKind.AbsoluteExpiration, expiration := 2000, expAt := 2000 }
    (by decide) (by decide) (by decide)

/-- Claim C7: in every reachable cache state, `Keys` returns exactly the
keys of stored entries not expired at call time, while `Count` counts every
physically stored entry; hence `len(Keys()) <= Count()`. -/
theorem keys_live_count_bound (m : CMap α) (now : Int) (hm : Reachable m) :
    (KeysOp m now).length ≤ CountOp m ∧
      ∀ k, k ∈ KeysOp m now ↔
        Option.any (fun x => !(x.expired now)) (mapFind m k) = true := by
  constructor
  · unfold KeysOp CountOp
    calc ((m.filter fun p => !(p.2.expired now)).map Prod.fst).length
        = (m.filter fun p => !(p.2.expired now)).length := List.length_map _ _
      _ ≤ m.length := List.length_filter_le _ _
  · exact fun k => keysOp_mem_iff m now k (reachable_keysNodup m hm)

/-- Witness for C7 on a concrete one-entry reachable cache. -/
theorem keys_live_count_bound_witness :
    (KeysOp (PutOp ([] : CMap Nat) 0 "k" 5 0 ExpirationKind.AbsoluteExpiration)
        1).length ≤
      CountOp (PutOp ([] : CMap Nat) 0 "k" 5 0 ExpirationKind.AbsoluteExpiration) ∧
      ∀ k, k ∈ KeysOp (PutOp ([] : CMap Nat) 0 "k" 5 0
          ExpirationKind.AbsoluteExpiration) 1 ↔
        Option.any (fun x => !(x.expired 1))
          (mapFind (PutOp ([] : CMap Nat) 0 "k" 5 0
            ExpirationKind.AbsoluteExpiration) k) = true :=
  keys_live_count_bound _ 1
    (Reachable.putStep [] 0 (by decide) "k" 5 0
      ExpirationKind.AbsoluteExpiration Reachable.empty)

/-- Claim C8: the sweeper's effective tick interval never falls below the
one-second floor: a configured interval below the floor is replaced by the
floor, and a configured interval at or above the floor is used as-is
(the effective interval is the maximum of the floor and the configured
value). -/
theorem sweeper_interval_floor (t : Int) :
    _minTickInterval ≤ effectiveTickInterval t ∧
      effectiveTickInterval t = max _minTickInterval t := by
  unfold effectiveTickInterval
  by_cases h : t < _minTickInterval
  · rw [if_pos h]
    exact ⟨le_refl _, (max_eq_left h.le).symm⟩
  · rw [if_neg h]
    push_neg at h
    exact ⟨h, (max_eq_right h).symm⟩

/-- Claim C10: in every reachable state, every stored entry's duration is
either exactly 0 (the normalized no-expiration marker, paired with an
expiry timestamp at least `_noExpiration` in the future) or at least
`_minExpiration`; consequently the below-minimum fast-path test used by
`get` and `Add` coincides with the zero marker on stored entries. -/
theorem expiration_normalized_invariant (m : CMap α) (hm : Reachable m)
    (k : String) (x : Item α) (hf : mapFind m k = some x) :
    (x.expiration = 0 ∨ _minExpiration ≤ x.expiration) ∧
      (x.expiration = 0 → _noExpiration ≤ x.expAt) ∧
      (x.expiration < _minExpiration ↔ x.expiration = 0) := by
  obtain ⟨k2, hk2⟩ := mapFind_mem m k x hf
  obtain ⟨h1, h2⟩ := reachable_goodMap m hm (k2, x) hk2
  refine ⟨h1, h2, ?_, ?_⟩
  · intro hlt
    rcases h1 with h | h
    · exact h
    · exact absurd hlt (not_lt.mpr h)
  · intro h0
    rw [h0]
    norm_num [_minExpiration]

/-- Witness for C10 on a concrete reachable cache holding a normalized
no-expiration entry. -/
theorem expiration_normalized_invariant_witness :
    ((0 : Int) = 0 ∨ _minExpiration ≤ (0 : Int)) ∧
      ((0 : Int) = 0 → _noExpiration ≤ (0 : Int) + _noExpiration) ∧
      ((0 : Int) < _minExpiration ↔ (0 : Int) = 0) :=
  expiration_normalized_invariant
    (PutOp ([] : CMap Nat) 0 "k" 5 0 ExpirationKind.AbsoluteExpiration)
    (Reachable.putStep [] 0 (by decide) "k" 5 0
      ExpirationKind.AbsoluteExpiration Reachable.empty)
    "k"
    { key := "k", value := 5, version := 0,
      kind := ExpirationKind.AbsoluteExpiration, expiration := 0,
      expAt := 0 + _noExpiration }
    (by decide)

/-- Claim C1 counterexample: on a live entry with current version 0,
`UpdateV` with expected version `-1` succeeds even though the current
version differs from the supplied expected version, refuting the claimed
iff for arbitrary expected versions. -/
theorem updateV_neg_version_cex :
    (UpdateVOp (put ([] : CMap Nat) 0 "k" 41 0 ExpirationKind.AbsoluteExpiration)
        0 "k" (-1) 42).1 = true ∧
      (mapFind (put ([] : CMap Nat) 0 "k" 41 0 ExpirationKind.AbsoluteExpiration)
          "k").map (fun x => x.version) = some 0 ∧
      ¬ (0 : Int) = -1 := by
  decide

/-- Claim C1 (amended): for every nonnegative expected version, `UpdateV`
returns true iff the entry for the key exists and is live with its current
version equal to the expected version; on success it stores the supplied
value with the version incremented by exactly one (plus the sliding touch),
and on failure it leaves the map unchanged. -/
theorem updateV_cas_semantics (m : CMap α) (now : Int) (k : String)
    (ev : Int) (v : α) (hev : 0 ≤ ev) :
    ((UpdateVOp m now k ev v).1 = true ↔
        ∃ x, get m now k = some x ∧ x.version = ev) ∧
      (∀ x, get m now k = some x → x.version = ev →
        UpdateVOp m now k ev v =
          (true, mapInsert m k
            (Item.touch { x with value := v, version := x.version + 1 } now))) ∧
      ((UpdateVOp m now k ev v).1 = false → (UpdateVOp m now k ev v).2 = m) := by
  unfold UpdateVOp update
  cases hg : get m now k with
  | none =>
      exact ⟨by simp, fun x hx => absurd hx (by simp), fun _ => rfl⟩
  | some x =>
      simp only []
      by_cases hv : x.version = ev
      · rw [if_neg (by simp [hv])]
        refine ⟨⟨fun _ => ⟨x, rfl, hv⟩, fun _ => rfl⟩, ?_, ?_⟩
        · intro y hy hvy
          obtain rfl : x = y := Option.some.inj hy
          rfl
        · intro habs
          exact absurd habs (by simp)
      · rw [if_pos ⟨hev, hv⟩]
        refine ⟨⟨fun habs => absurd habs (by simp), ?_⟩, ?_, fun _ => rfl⟩
        · rintro ⟨y, hy, hvy⟩
          obtain rfl : x = y := Option.some.inj hy
          exact absurd hvy hv
        · intro y hy hvy
          obtain rfl : x = y := Option.some.inj hy
          exact absurd hvy hv

/-- Witness for the amended C1 on a concrete live version-0 entry with
expected version 0. -/
theorem updateV_cas_semantics_witness :
    ((UpdateVOp (put ([] : CMap Nat) 0 "k" 41 0 ExpirationKind.AbsoluteExpiration)
          0 "k" 0 42).1 = true ↔
        ∃ x, get (put ([] : CMap Nat) 0 "k" 41 0 ExpirationKind.AbsoluteExpiration)
            0 "k" = some x ∧ x.version = 0) ∧
      (∀ x, get (put ([] : CMap Nat) 0 "k" 41 0 ExpirationKind.AbsoluteExpiration)
          0 "k" = some x → x.version = 0 →
        UpdateVOp (put ([] : CMap Nat) 0 "k" 41 0 ExpirationKind.AbsoluteExpiration)
            0 "k" 0 42 =
          (true, mapInsert
            (put ([] : CMap Nat) 0 "k" 41 0 ExpirationKind.AbsoluteExpiration) "k"
            (Item.touch { x with value := 42, version := x.version + 1 } 0))) ∧
      ((UpdateVOp (put ([] : CMap Nat) 0 "k" 41 0 ExpirationKind.AbsoluteExpiration)
          0 "k" 0 42).1 = false →
        (UpdateVOp (put ([] : CMap Nat) 0 "k" 41 0 ExpirationKind.AbsoluteExpiration)
          0 "k" 0 42).2 =
          put ([] : CMap Nat) 0 "k" 41 0 ExpirationKind.AbsoluteExpiration) :=
  updateV_cas_semantics _ 0 "k" 0 42 (by decide)

/-- Claim C9: for every negative expected version, `UpdateV` coincides
exactly with the unconditional `Update`: the version-equality check is
skipped and any live entry is updated, its version incremented by one. -/
theorem updateV_negative_eq_update (m : CMap α) (now : Int) (k : String)
    (ver : Int) (v : α) (hver : ver < 0) :
    UpdateVOp m now k ver v = UpdateOp m now k v ∧
      ∀ x, get m now k = some x →
        UpdateVOp m now k ver v =
          (true, mapInsert m k
            (Item.touch { x with value := v, version := x.version + 1 } now)) := by
  unfold UpdateVOp UpdateOp update
  cases hg : get m now k with
  | none => exact ⟨rfl, fun x hx => absurd hx (by simp)⟩
  | some x =>
      simp only []
      rw [if_neg (by omega : ¬(0 ≤ ver ∧ x.version ≠ ver)),
        if_neg (by omega : ¬(0 ≤ (-1 : Int) ∧ x.version ≠ -1))]
      refine ⟨rfl, ?_⟩
      intro y hy
      obtain rfl : x = y := Option.some.inj hy
      rfl

/-- Witness for C9 with expected version `-2` on a concrete live entry. -/
theorem updateV_negative_eq_update_witness :
    UpdateVOp (put ([] : CMap Nat) 0 "k" 7 0 ExpirationKind.AbsoluteExpiration)
        0 "k" (-2) 8 =
      UpdateOp (put ([] : CMap Nat) 0 "k" 7 0 ExpirationKind.AbsoluteExpiration)
        0 "k" 8 ∧
      ∀ x, get (put ([] : CMap Nat) 0 "k" 7 0 ExpirationKind.AbsoluteExpiration)
          0 "k" = some x →
        UpdateVOp (put ([] : CMap Nat) 0 "k" 7 0 ExpirationKind.AbsoluteExpiration)
            0 "k" (-2) 8 =
          (true, mapInsert
            (put ([] : CMap Nat) 0 "k" 7 0 ExpirationKind.AbsoluteExpiration) "k"
            (Item.touch { x with value := 8, version := x.version + 1 } 0)) :=
  updateV_negative_eq_update _ 0 "k" (-2) 8 (by decide)

/-- Claim C2 counterexample: a live Sliding entry stored with normalized
duration 0 (requested duration below `_minExpiration`) is successfully
read by `Get`, yet its expiry timestamp stays at the far-future value
instead of becoming `now` plus the stored duration. -/
theorem sliding_zero_get_no_refresh_cex :
    (mapFind (put ([] : CMap Nat) 0 "k" 7 0 ExpirationKind.SlidingExpiration)
          "k").map (fun x => (x.kind, x.expiration, x.expAt)) =
        some (ExpirationKind.SlidingExpiration, 0, _noExpiration) ∧
      (GetOp (put ([] : CMap Nat) 0 "k" 7 0 ExpirationKind.SlidingExpiration)
          5 "k").1 = some 7 ∧
      (mapFind (GetOp (put ([] : CMap Nat) 0 "k" 7 0
            ExpirationKind.SlidingExpiration) 5 "k").2 "k").map
          (fun x => x.expAt) = some _noExpiration ∧
      ¬ _noExpiration = 5 + 0 := by
  decide

/-- Claim C2 (amended): for every live Sliding entry whose stored duration
is meaningful (at least `_minExpiration`), a successful `Get` rewrites the
entry's expiry timestamp to `now` plus the stored duration, while `Exists`
reports the entry without modifying anything (it is read-only on the map by
construction). -/
theorem sliding_get_refresh_exists_probe (m : CMap α) (now : Int)
    (k : String) (x : Item α) (hf : mapFind m k = some x)
    (hk : x.kind = ExpirationKind.SlidingExpiration)
    (hd : _minExpiration ≤ x.expiration) (hl : ¬ x.expAt < now) :
    GetOp m now k =
        (some x.value, mapInsert m k { x with expAt := now + x.expiration }) ∧
      ExistsOp m now k = true := by
  have hg : get m now k = some x := by
    simp only [get, hf]
    rw [if_neg (not_lt.mpr hd), if_neg (by simp [Item.expired, hl])]
  constructor
  · unfold GetOp
    rw [hg]
    simp only []
    unfold Item.touch
    rw [if_neg (by simp [hk]), if_pos hd]
  · unfold ExistsOp
    rw [hg]
    rfl

/-- Witness for the amended C2 on a concrete live sliding entry. -/
theorem sliding_get_refresh_exists_probe_witness :
    GetOp (put ([] : CMap Nat) 0 "k" 9 2000 ExpirationKind.SlidingExpiration)
        1500 "k" =
      (some 9, mapInsert
        (put ([] : CMap Nat) 0 "k" 9 2000 ExpirationKind.SlidingExpiration) "k"
        { key := "k", value := 9, version := 0,
          kind := ExpirationKind.SlidingExpiration, expiration := 2000,
          expAt := 1500 + 2000 }) ∧
      ExistsOp (put ([] : CMap Nat) 0 "k" 9 2000
        ExpirationKind.SlidingExpiration) 1500 "k" = true :=
  sliding_get_refresh_exists_probe _ 1500 "k"
    { key := "k", value := 9, version := 0,
      kind := ExpirationKind.SlidingExpiration, expiration := 2000,
      expAt := 2000 }
    (by decide) (by decide) (by decide) (by decide)

/-- Claim C4: `Add` returns true and installs a fresh version-0 entry when
no entry is physically present or the present entry is expired (not live in
the cache's sense: a meaningful duration whose deadline has passed); it
returns false and leaves the map unchanged when a live entry occupies the
key. -/
theorem add_semantics (m : CMap α) (now : Int) (k : String) (v : α)
    (e : Int) (kd : ExpirationKind) :
    (match mapFind m k with
      | none => AddOp m now k v e kd = (true, put m now k v e kd)
      | some x =>
          if x.expiration < _minExpiration ∨ ¬ x.expAt < now then
            AddOp m now k v e kd = (false, m)
          else AddOp m now k v e kd = (true, put m now k v e kd)) ∧
      (mapFind (put m now k v e kd) k).map (fun x => x.version) = some 0 := by
  constructor
  · cases hf : mapFind m k with
    | none =>
        unfold AddOp
        rw [hf]
    | some x =>
        simp only []
        by_cases hlive : x.expiration < _minExpiration ∨ ¬ x.expAt < now
        · rw [if_pos hlive]
          have hc : ¬(_minExpiration ≤ x.expiration ∧ x.expired now = true) := by
            rintro ⟨hge, hex⟩
            rcases hlive with h | h
            · exact absurd hge (not_le.mpr h)
            · exact h (by simpa [Item.expired] using hex)
          unfold AddOp
          rw [hf]
          simp only []
          rw [if_neg hc]
        · rw [if_neg hlive]
          push_neg at hlive
          obtain ⟨h1, h2⟩ := hlive
          unfold AddOp
          rw [hf]
          simp only []
          rw [if_pos ⟨h1, by simp [Item.expired, h2]⟩]
  · unfold put
    by_cases hme : e < _minExpiration
    · rw [if_pos hme, mapFind_mapInsert]
      simp
    · rw [if_neg hme, mapFind_mapInsert]
      simp

/-- Claim C5 counterexample: a permanent entry (requested duration below
`_minExpiration`) is still reported live by `Exists` once more than
`_noExpiration` has elapsed, but `Keys` no longer lists it: it is not
treated as live by every subsequent `Keys` check. -/
theorem permanent_entry_keys_cex :
    ExistsOp (put ([] : CMap Nat) 0 "k" 3 0 ExpirationKind.AbsoluteExpiration)
        3600000000000000001 "k" = true ∧
      ¬ "k" ∈ KeysOp (put ([] : CMap Nat) 0 "k" 3 0
          ExpirationKind.AbsoluteExpiration) 3600000000000000001 := by
  decide

/-- Claim C5 (amended): for a requested duration below `_minExpiration`,
`Put` stores an entry whose expiry timestamp is the call time plus the very
large `_noExpiration` constant; every subsequent `Get` and `Exists` treats
it as live at every time, and `Keys` lists it at all times not beyond that
far-future deadline. -/
theorem permanent_entry_liveness (m : CMap α) (now : Int) (k : String)
    (v : α) (e : Int) (kd : ExpirationKind) (he : e < _minExpiration) :
    (mapFind (PutOp m now k v e kd) k).map (fun x => x.expAt) =
        some (now + _noExpiration) ∧
      (∀ now2, (GetOp (PutOp m now k v e kd) now2 k).1 = some v ∧
        ExistsOp (PutOp m now k v e kd) now2 k = true) ∧
      (∀ now2, ¬ now + _noExpiration < now2 →
        k ∈ KeysOp (PutOp m now k v e kd) now2) := by
  have hput : PutOp m now k v e kd = mapInsert m k
      { key := k, value := v, version := 0, kind := kd,
        expiration := 0, expAt := now + _noExpiration } := by
    unfold PutOp put
    rw [if_pos he]
  have hfind : mapFind (PutOp m now k v e kd) k = some
      { key := k, value := v, version := 0, kind := kd,
        expiration := 0, expAt := now + _noExpiration } := by
    rw [hput, mapFind_mapInsert]
    simp
  have hg : ∀ now2, get (PutOp m now k v e kd) now2 k = some
      { key := k, value := v, version := 0, kind := kd,
        expiration := 0, expAt := now + _noExpiration } := by
    intro now2
    simp only [get, hfind]
    rw [if_pos (by norm_num [_minExpiration])]
  refine ⟨by simp [hfind], fun now2 => ⟨?_, ?_⟩, ?_⟩
  · unfold GetOp
    rw [hg now2]
  · unfold ExistsOp
    rw [hg now2]
    rfl
  · intro now2 h2
    rw [hput]
    obtain ⟨p, hp, h1, h2p⟩ := mapInsert_exists_mem m k
      { key := k, value := v, version := 0, kind := kd,
        expiration := 0, expAt := now + _noExpiration }
    unfold KeysOp
    refine List.mem_map.mpr ⟨p, List.mem_filter.mpr ⟨hp, ?_⟩, h1⟩
    rw [h2p]
    simp [Item.expired, h2]

/-- Witness for the amended C5 at a concrete permanent entry. -/
theorem permanent_entry_liveness_witness :
    (mapFind (PutOp ([] : CMap Nat) 0 "k" 3 0 ExpirationKind.AbsoluteExpiration)
          "k").map (fun x => x.expAt) = some (0 + _noExpiration) ∧
      (∀ now2, (GetOp (PutOp ([] : CMap Nat) 0 "k" 3 0
            ExpirationKind.AbsoluteExpiration) now2 "k").1 = some 3 ∧
        ExistsOp (PutOp ([] : CMap Nat) 0 "k" 3 0
          ExpirationKind.AbsoluteExpiration) now2 "k" = true) ∧
      (∀ now2, ¬ (0 : Int) + _noExpiration < now2 →
        "k" ∈ KeysOp (PutOp ([] : CMap Nat) 0 "k" 3 0
          ExpirationKind.AbsoluteExpiration) now2) :=
  permanent_entry_liveness [] 0 "k" 3 0 ExpirationKind.AbsoluteExpiration
    (by decide)

/-- Claim C6: `Put` unconditionally installs a fresh version-0 entry, so a
`GetV` immediately following (no intervening operations, before expiry)
returns exactly the stored value with version 0, and likewise `Get` returns
the stored value as found. -/
theorem put_then_get_fresh (m : CMap α) (now now2 : Int) (k : String)
    (v : α) (e : Int) (kd : ExpirationKind)
    (hlive : _minExpiration ≤ e → ¬ now + e < now2) :
    (GetVOp (PutOp m now k v e kd) now2 k).1 = some (v, 0) ∧
      (GetOp (PutOp m now k v e kd) now2 k).1 = some v := by
  by_cases he : e < _minExpiration
  · have hfind : mapFind (PutOp m now k v e kd) k = some
        { key := k, value := v, version := 0, kind := kd,
          expiration := 0, expAt := now + _noExpiration } := by
      unfold PutOp put
      rw [if_pos he, mapFind_mapInsert]
      simp
    have hg : get (PutOp m now k v e kd) now2 k = some
        { key := k, value := v, version := 0, kind := kd,
          expiration := 0, expAt := now + _noExpiration } := by
      simp only [get, hfind]
      rw [if_pos (by norm_num [_minExpiration])]
    constructor
    · unfold GetVOp
      rw [hg]
    · unfold GetOp
      rw [hg]
  · push_neg at he
    have hnl := hlive he
    have hfind : mapFind (PutOp m now k v e kd) k = some
        { key := k, value := v, version := 0, kind := kd,
          expiration := e, expAt := now + e } := by
      unfold PutOp put
      rw [if_neg (not_lt.mpr he), mapFind_mapInsert]
      simp
    have hg : get (PutOp m now k v e kd) now2 k = some
        { key := k, value := v, version := 0, kind := kd,
          expiration := e, expAt := now + e } := by
      simp only [get, hfind]
      rw [if_neg (by simpa using not_lt.mpr he),
        if_neg (by simp [Item.expired, hnl])]
    constructor
    · unfold GetVOp
      rw [hg]
    · unfold GetOp
      rw [hg]

/-- Witness for C6: a fresh 2000ns absolute entry read back at 1000ns. -/
theorem put_then_get_fresh_witness :
    (GetVOp (PutOp ([] : CMap Nat) 0 "k" 11 2000
        ExpirationKind.AbsoluteExpiration) 1000 "k").1 = some (11, 0) ∧
      (GetOp (PutOp ([] : CMap Nat) 0 "k" 11 2000
        ExpirationKind.AbsoluteExpiration) 1000 "k").1 = some 11 :=
  put_then_get_fresh [] 0 1000 "k" 11 2000 ExpirationKind.AbsoluteExpiration
    (by decide)

end MCache
